import Mathlib

set_option linter.unusedVariables false

/-!
Verification of the GNN fake-news training script (gcn.py): a shallow
embedding of its data assembly, dataset partitioning, model forward pass,
CLI flag parsing and training loop, with theorems settling the
specification claims. Rational numbers stand in for the script's floats;
tensors are lists.
-/

/-- Python list slice l[a:b] for 0 ≤ a ≤ b (tensor slicing along one
dimension): elements at indices a, …, b-1, clamped at the length. -/
def pySlice {α : Type} (l : List α) (a b : Nat) : List α := (l.take b).drop a

/-- One reconstructed graph record (gcn.py, loop at lines 106-116): the two
edge-index rows, the node-feature matrix, the label and the node count. -/
structure GraphRec where
  edge0 : List Nat
  edge1 : List Nat
  x : List (List ℚ)
  y : Nat
  numNodes : Nat
  deriving DecidableEq

/-- The concatenated tensor store held by the dataset (dataset.data together
with dataset.slices): concatenated edge-index rows, node features, labels,
per-graph node counts, and the slice boundary sequences for edges and
nodes. -/
structure ConcatStore where
  edge0 : List Nat
  edge1 : List Nat
  x : List (List ℚ)
  y : List Nat
  numNodes : List Nat
  edgeSlices : List Nat
  nodeSlices : List Nat
  deriving DecidableEq

def emptyRec : GraphRec :=
  { edge0 := [], edge1 := [], x := [], y := 0, numNodes := 0 }

/-- Number of iterations of the splitter loop:
enumerate(zip(train_edge_slices[:-1], train_node_slices[:-1])). -/
def numRecs (store : ConcatStore) : Nat :=
  min (store.edgeSlices.length - 1) (store.nodeSlices.length - 1)

def eSl (store : ConcatStore) (i : Nat) : Nat := store.edgeSlices.getD i 0

def nSl (store : ConcatStore) (i : Nat) : Nat := store.nodeSlices.getD i 0

/-- Row 0 of data.edge_index[:, edge_slice : train_edge_slices[index+1]]
(line 108). -/
def rawEdge0 (store : ConcatStore) (i : Nat) : List Nat :=
  pySlice store.edge0 (eSl store i) (eSl store (i + 1))

/-- Row 1 of the same edge slice. -/
def rawEdge1 (store : ConcatStore) (i : Nat) : List Nat :=
  pySlice store.edge1 (eSl store i) (eSl store (i + 1))

/-- mask = data.edge_index[0, :] == data.edge_index[1, :] (line 110),
computed elementwise over the columns of the sliced edge index. -/
def boolMask (r0 r1 : List Nat) : List Bool :=
  List.zipWith (fun a b => a == b) r0 r1

/-- Selection of the entries of one tensor row under a boolean mask. -/
def maskFilter (l : List Nat) (m : List Bool) : List Nat :=
  (List.zip l m).filterMap (fun p => if p.2 then some p.1 else none)

/-- torch.masked_select(edge_index, mask) on a 2×E tensor with an E-length
mask: the mask broadcasts over the two rows, and the selected elements are
flattened in row-major order — row 0's surviving entries followed by
row 1's. -/
def maskedSelect2 (r0 r1 : List Nat) (m : List Bool) : List Nat :=
  maskFilter r0 m ++ maskFilter r1 m

/-- .reshape(2, -1): split the flat selection back into two equal rows. -/
def reshape2 (flat : List Nat) : List Nat × List Nat :=
  (flat.take (flat.length / 2), flat.drop (flat.length / 2))

/-- Lines 110-111: keep only the self-loop columns of the sliced edge
index. -/
def selfLoopExtract (r0 r1 : List Nat) : List Nat × List Nat :=
  reshape2 (maskedSelect2 r0 r1 (boolMask r0 r1))

/-- Number of self-loop positions in an edge slice. -/
def selfLoopCount (r0 r1 : List Nat) : Nat := (boolMask r0 r1).count true

/-- One iteration of the splitter loop (lines 106-116): the loop works on
data = cp.copy(dataset.data) — a shallow copy whose attribute rebinding
leaves dataset.data itself untouched — slices the edge index, keeps only
its self-loop columns, slices the node features, and picks the label and
node count of graph i. -/
def graphListRecord (store : ConcatStore) (i : Nat) : GraphRec :=
  { edge0 := (selfLoopExtract (rawEdge0 store i) (rawEdge1 store i)).1,
    edge1 := (selfLoopExtract (rawEdge0 store i) (rawEdge1 store i)).2,
    x := pySlice store.x (nSl store i) (nSl store (i + 1)),
    y := store.y.getD i 0,
    numNodes := store.numNodes.getD i 0 }

/-- graph_list after the loop (line 116 appends one record per
iteration). -/
def buildGraphList (store : ConcatStore) : List GraphRec :=
  (List.range (numRecs store)).map (graphListRecord store)

/-- Modelled from the spec: the dataset provider's record extraction
(data_loader.py / FNNDataset is not under src). Per the spec the provider
"supplies a collection of labeled graphs, each graph carrying per-node
feature vectors, an edge list, and a graph-level label" and "provides
slicing metadata to partition a concatenated tensor store into individual
graphs": a dataset record is the plain slice of the store at the recorded
boundaries, with no self-loop mask. The ToUndirected transform, which only
adds reversed copies of existing edges, is omitted here; it affects
neither whether an edge is a self-loop nor whether the slice is
filtered. -/
def datasetRecord (store : ConcatStore) (i : Nat) : GraphRec :=
  { edge0 := rawEdge0 store i,
    edge1 := rawEdge1 store i,
    x := pySlice store.x (nSl store i) (nSl store (i + 1)),
    y := store.y.getD i 0,
    numNodes := store.numNodes.getD i 0 }

/-- The collection that random_split is applied to (line 121): the script
passes `dataset` itself — not graph_list — so the pool handed to the
partitioner is the dataset's own records. -/
def partitionInput (store : ConcatStore) : List GraphRec :=
  (List.range (numRecs store)).map (datasetRecord store)

theorem maskFilter_boolMask_eq (r0 : List Nat) :
    ∀ r1, maskFilter r0 (boolMask r0 r1) = maskFilter r1 (boolMask r0 r1) := by
  induction r0 with
  | nil => intro r1; simp [boolMask, maskFilter]
  | cons a t0 ih =>
    intro r1
    cases r1 with
    | nil => simp [boolMask, maskFilter]
    | cons b t1 =>
      by_cases h : a = b
      · subst h
        simpa [boolMask, maskFilter] using ih t1
      · have hb : (a == b) = false := by simpa using h
        simpa [boolMask, maskFilter, hb] using ih t1

theorem mem_zip_self {l : List Nat} : ∀ p ∈ List.zip l l, p.1 = p.2 := by
  induction l with
  | nil => intro p hp; simp at hp
  | cons a t ih =>
    intro p hp
    rw [List.zip_cons_cons, List.mem_cons] at hp
    rcases hp with h | h
    · subst h; rfl
    · exact ih p h

theorem selfLoopExtract_eq (r0 r1 : List Nat) :
    selfLoopExtract r0 r1 =
      (maskFilter r0 (boolMask r0 r1), maskFilter r0 (boolMask r0 r1)) := by
  unfold selfLoopExtract maskedSelect2 reshape2
  rw [← maskFilter_boolMask_eq r0 r1]
  have hlen :
      (maskFilter r0 (boolMask r0 r1) ++ maskFilter r0 (boolMask r0 r1)).length / 2 =
        (maskFilter r0 (boolMask r0 r1)).length := by
    rw [List.length_append]; omega
  rw [hlen, List.take_left, List.drop_left]

theorem maskFilter_eq_nil (m : List Bool) :
    ∀ l, m.count true = 0 → maskFilter l m = [] := by
  induction m with
  | nil => intro l h; simp [maskFilter]
  | cons bb mt ih =>
    intro l h
    have hb : bb = false := by
      cases bb
      · rfl
      · simp [List.count_cons] at h
    subst hb
    have hmt : mt.count true = 0 := by simpa [List.count_cons] using h
    cases l with
    | nil => simp [maskFilter]
    | cons a lt => simpa [maskFilter] using ih lt hmt

theorem graphListRecord_pairs_eq (store : ConcatStore) (i : Nat) :
    ∀ p ∈ List.zip (graphListRecord store i).edge0 (graphListRecord store i).edge1,
      p.1 = p.2 := by
  intro p hp
  have h0 : (graphListRecord store i).edge0 =
      maskFilter (rawEdge0 store i) (boolMask (rawEdge0 store i) (rawEdge1 store i)) := by
    simp [graphListRecord, selfLoopExtract_eq]
  have h1 : (graphListRecord store i).edge1 =
      maskFilter (rawEdge0 store i) (boolMask (rawEdge0 store i) (rawEdge1 store i)) := by
    simp [graphListRecord, selfLoopExtract_eq]
  rw [h0, h1] at hp
  exact mem_zip_self p hp

/-- Claim C1: every record the graph splitter produces keeps only self-loop
edges — each retained column of its edge index has source equal to
destination — and when the record's raw edge slice contains zero
self-loops, the resulting edge set is empty. -/
theorem c1_splitter_self_loops (store : ConcatStore) (i : Nat)
    (hi : i < numRecs store) :
    graphListRecord store i ∈ buildGraphList store ∧
    (∀ p ∈ List.zip (graphListRecord store i).edge0 (graphListRecord store i).edge1,
      p.1 = p.2) ∧
    (selfLoopCount (rawEdge0 store i) (rawEdge1 store i) = 0 →
      (graphListRecord store i).edge0 = [] ∧ (graphListRecord store i).edge1 = []) := by
  refine ⟨List.mem_map_of_mem _ (List.mem_range.mpr hi),
    graphListRecord_pairs_eq store i, ?_⟩
  intro hz
  have hnil := maskFilter_eq_nil
    (boolMask (rawEdge0 store i) (rawEdge1 store i)) (rawEdge0 store i) hz
  constructor
  · simp [graphListRecord, selfLoopExtract_eq, hnil]
  · simp [graphListRecord, selfLoopExtract_eq, hnil]

/-- A two-node, one-graph store whose single edge (0, 1) is not a
self-loop, together with a second edge (1, 1) that is one. -/
def storeCx : ConcatStore :=
  { edge0 := [0, 1], edge1 := [1, 1],
    x := [[1], [1]], y := [0], numNodes := [2],
    edgeSlices := [0, 2], nodeSlices := [0, 2] }

theorem c1_splitter_self_loops_witness :
    0 < numRecs storeCx ∧
    (graphListRecord storeCx 0 ∈ buildGraphList storeCx ∧
      (∀ p ∈ List.zip (graphListRecord storeCx 0).edge0 (graphListRecord storeCx 0).edge1,
        p.1 = p.2) ∧
      (selfLoopCount (rawEdge0 storeCx 0) (rawEdge1 storeCx 0) = 0 →
        (graphListRecord storeCx 0).edge0 = [] ∧ (graphListRecord storeCx 0).edge1 = [])) :=
  ⟨by decide, c1_splitter_self_loops storeCx 0 (by decide)⟩

/-- Claim C2, counterexample: on storeCx the record handed onward to the
partitioner still contains the non-self-loop edge (0, 1) — the records the
partitioner receives do not carry the filtered, self-loop-only edge
sets. -/
theorem c2_partition_filtered_counterexample :
    ∃ rec ∈ partitionInput storeCx,
      ∃ p ∈ List.zip rec.edge0 rec.edge1, p.1 ≠ p.2 := by decide

/-- Claim C2 (amended): the load-time edge-mask rewrite produces filtered
shallow copies that are collected into graph_list — every graph_list record
is self-loop-only — but graph_list is never used again: the partitioner is
applied to `dataset` itself, whose records carry the raw, unfiltered edge
slices onward to training, validation and test. -/
theorem c2_partition_gets_unfiltered (store : ConcatStore) :
    (∀ rec ∈ buildGraphList store, ∀ p ∈ List.zip rec.edge0 rec.edge1, p.1 = p.2) ∧
    partitionInput store = (List.range (numRecs store)).map (datasetRecord store) ∧
    (∀ rec ∈ partitionInput store, ∃ i, i < numRecs store ∧
      rec.edge0 = rawEdge0 store i ∧ rec.edge1 = rawEdge1 store i) := by
  refine ⟨?_, rfl, ?_⟩
  · intro rec hrec p hp
    obtain ⟨i, hi, hrfl⟩ := List.mem_map.mp hrec
    rw [List.mem_range] at hi
    subst hrfl
    exact graphListRecord_pairs_eq store i p hp
  · intro rec hrec
    obtain ⟨i, hi, hrfl⟩ := List.mem_map.mp hrec
    rw [List.mem_range] at hi
    subst hrfl
    exact ⟨i, hi, rfl, rfl⟩

theorem c2_partition_gets_unfiltered_witness :
    (∀ rec ∈ buildGraphList storeCx, ∀ p ∈ List.zip rec.edge0 rec.edge1, p.1 = p.2) ∧
    partitionInput storeCx = (List.range (numRecs storeCx)).map (datasetRecord storeCx) ∧
    (∀ rec ∈ partitionInput storeCx, ∃ i, i < numRecs storeCx ∧
      rec.edge0 = rawEdge0 storeCx i ∧ rec.edge1 = rawEdge1 storeCx i) :=
  c2_partition_gets_unfiltered storeCx

/-- num_training = int(len(dataset) * 0.2) (line 118). For the dataset
sizes arising here, truncating the float product 0.2·N equals the rational
floor of (2/10)·N, which is the natural-number division N·2/10. -/
def numTraining (n : Nat) : Nat := n * 2 / 10

/-- num_val = int(len(dataset) * 0.1) (line 119). -/
def numVal (n : Nat) : Nat := n / 10

/-- num_test = len(dataset) - (num_training + num_val) (line 120). -/
def numTest (n : Nat) : Nat := n - (numTraining n + numVal n)

/-- torch.utils.data.random_split(dataset, [t, v, u]) (line 121): draw a
random permutation of the indices and chunk it into consecutive pieces of
the requested lengths. The permutation is a parameter here, constrained to
be a permutation of all indices. -/
def randomSplit (perm : List Nat) (t v u : Nat) :
    List Nat × List Nat × List Nat :=
  (perm.take t, (perm.drop t).take v, ((perm.drop t).drop v).take u)

theorem numTraining_eq_floor (n : Nat) :
    numTraining n = Nat.floor ((2 / 10 : ℚ) * n) := by
  have h : (2 / 10 : ℚ) * n = ((2 * n : Nat) : ℚ) / ((10 : Nat) : ℚ) := by
    push_cast; ring
  rw [h, Nat.floor_div_nat, Nat.floor_natCast]
  simp [numTraining, Nat.mul_comm]

theorem numVal_eq_floor (n : Nat) :
    numVal n = Nat.floor ((1 / 10 : ℚ) * n) := by
  have h : (1 / 10 : ℚ) * n = ((n : Nat) : ℚ) / ((10 : Nat) : ℚ) := by
    push_cast; ring
  rw [h, Nat.floor_div_nat, Nat.floor_natCast]
  rfl

/-- Claim C3: the partitioner computes training = floor(0.2·N),
validation = floor(0.1·N), test = N minus the other two, and chunks a
permutation of all N indices into three pairwise-disjoint pieces that
together cover every index exactly once. -/
theorem c3_partition_sizes_disjoint_cover (N : Nat) (perm : List Nat)
    (hperm : perm.Perm (List.range N)) :
    (randomSplit perm (numTraining N) (numVal N) (numTest N)).1.length =
      Nat.floor ((2 / 10 : ℚ) * N) ∧
    (randomSplit perm (numTraining N) (numVal N) (numTest N)).2.1.length =
      Nat.floor ((1 / 10 : ℚ) * N) ∧
    (randomSplit perm (numTraining N) (numVal N) (numTest N)).2.2.length =
      N - (numTraining N + numVal N) ∧
    List.Disjoint (randomSplit perm (numTraining N) (numVal N) (numTest N)).1
      (randomSplit perm (numTraining N) (numVal N) (numTest N)).2.1 ∧
    List.Disjoint (randomSplit perm (numTraining N) (numVal N) (numTest N)).1
      (randomSplit perm (numTraining N) (numVal N) (numTest N)).2.2 ∧
    List.Disjoint (randomSplit perm (numTraining N) (numVal N) (numTest N)).2.1
      (randomSplit perm (numTraining N) (numVal N) (numTest N)).2.2 ∧
    ((randomSplit perm (numTraining N) (numVal N) (numTest N)).1 ++
      (randomSplit perm (numTraining N) (numVal N) (numTest N)).2.1 ++
      (randomSplit perm (numTraining N) (numVal N) (numTest N)).2.2).Perm
      (List.range N) := by
  have hlen : perm.length = N := by simpa using hperm.length_eq
  have ht : numTraining N ≤ N := by unfold numTraining; omega
  have htv : numTraining N + numVal N ≤ N := by unfold numTraining numVal; omega
  have hu : numTest N = N - numTraining N - numVal N := by unfold numTest; omega
  have hdlen : (perm.drop (numTraining N)).length = N - numTraining N := by
    rw [List.length_drop, hlen]
  have hdd : ((perm.drop (numTraining N)).drop (numVal N)).length =
      N - numTraining N - numVal N := by
    rw [List.length_drop, hdlen]
  have hte : ((perm.drop (numTraining N)).drop (numVal N)).take (numTest N) =
      (perm.drop (numTraining N)).drop (numVal N) := by
    apply List.take_of_length_le
    rw [hdd, hu]
  have hsplit : perm.take (numTraining N) ++
      ((perm.drop (numTraining N)).take (numVal N) ++
        (perm.drop (numTraining N)).drop (numVal N)) = perm := by
    rw [List.take_append_drop, List.take_append_drop]
  have hnodup : perm.Nodup := hperm.symm.nodup (List.nodup_range N)
  have hnodup2 : (perm.take (numTraining N) ++
      ((perm.drop (numTraining N)).take (numVal N) ++
        (perm.drop (numTraining N)).drop (numVal N))).Nodup := by
    rw [hsplit]; exact hnodup
  rw [List.nodup_append] at hnodup2
  obtain ⟨hn1, hn2, hd1⟩ := hnodup2
  rw [List.nodup_append] at hn2
  obtain ⟨hn3, hn4, hd2⟩ := hn2
  refine ⟨?_, ?_, ?_, ?_, ?_, ?_, ?_⟩
  · simp only [randomSplit]
    rw [List.length_take, hlen, ← numTraining_eq_floor]
    omega
  · simp only [randomSplit]
    rw [List.length_take, hdlen, ← numVal_eq_floor]
    unfold numTraining numVal at htv ⊢
    omega
  · simp only [randomSplit, hte]
    rw [hdd]
    omega
  · simp only [randomSplit]
    intro a ha hb
    exact hd1 ha (List.mem_append_left _ hb)
  · simp only [randomSplit, hte]
    intro a ha hb
    exact hd1 ha (List.mem_append_right _ hb)
  · simp only [randomSplit, hte]
    exact hd2
  · simp only [randomSplit, hte]
    rw [List.append_assoc, hsplit]
    exact hperm

theorem c3_partition_sizes_disjoint_cover_witness :
    (randomSplit (List.range 10) (numTraining 10) (numVal 10) (numTest 10)).1.length =
      Nat.floor ((2 / 10 : ℚ) * (10 : Nat)) ∧
    (randomSplit (List.range 10) (numTraining 10) (numVal 10) (numTest 10)).2.1.length =
      Nat.floor ((1 / 10 : ℚ) * (10 : Nat)) ∧
    (randomSplit (List.range 10) (numTraining 10) (numVal 10) (numTest 10)).2.2.length =
      10 - (numTraining 10 + numVal 10) ∧
    List.Disjoint (randomSplit (List.range 10) (numTraining 10) (numVal 10) (numTest 10)).1
      (randomSplit (List.range 10) (numTraining 10) (numVal 10) (numTest 10)).2.1 ∧
    List.Disjoint (randomSplit (List.range 10) (numTraining 10) (numVal 10) (numTest 10)).1
      (randomSplit (List.range 10) (numTraining 10) (numVal 10) (numTest 10)).2.2 ∧
    List.Disjoint (randomSplit (List.range 10) (numTraining 10) (numVal 10) (numTest 10)).2.1
      (randomSplit (List.range 10) (numTraining 10) (numVal 10) (numTest 10)).2.2 ∧
    ((randomSplit (List.range 10) (numTraining 10) (numVal 10) (numTest 10)).1 ++
      (randomSplit (List.range 10) (numTraining 10) (numVal 10) (numTest 10)).2.1 ++
      (randomSplit (List.range 10) (numTraining 10) (numVal 10) (numTest 10)).2.2).Perm
      (List.range 10) :=
  c3_partition_sizes_disjoint_cover 10 (List.range 10) (List.Perm.refl _)

/-- Training-loop state (script __main__, lines 161-195). The entries of
out_log are abstracted to (epoch, batch index) tags standing for the
(softmax-probability, label) pairs appended at line 187; evalInputs records
the list that eval_deep consumes at line 188 in each epoch. -/
structure TrainState where
  min_loss : ℚ
  best_epoch : Nat
  val_loss_values : List ℚ
  out_log : List (Nat × Nat)
  evalInputs : List (List (Nat × Nat))
  epochsRun : Nat
  testEvals : Nat
  deriving DecidableEq

/-- Lines 164-167: min_loss = 1e10, best_epoch = 0, val_loss_values = [],
out_log = []. -/
def initState : TrainState :=
  { min_loss := 10 ^ 10, best_epoch := 0, val_loss_values := [],
    out_log := [], evalInputs := [], epochsRun := 0, testEvals := 0 }

/-- One epoch of the training loop (lines 171-193): every batch appends one
entry to out_log (line 187); eval_deep(out_log) then consumes the whole
accumulated list (line 188). min_loss, best_epoch and val_loss_values are
never assigned anywhere in the loop body. -/
def epochBody (nb : Nat) (s : TrainState) (epoch : Nat) : TrainState :=
  let log := s.out_log ++ (List.range nb).map (fun i => (epoch, i))
  { s with
    out_log := log,
    evalInputs := s.evalInputs ++ [log],
    epochsRun := s.epochsRun + 1 }

/-- for epoch in tqdm(range(args.epochs)). -/
def runTraining (epochs nb : Nat) : TrainState :=
  (List.range epochs).foldl (epochBody nb) initState

/-- Full __main__: the epoch loop, followed by exactly one
compute_test(test_loader) call (line 195). -/
def runMain (epochs nb : Nat) : TrainState :=
  let s := runTraining epochs nb
  { s with testEvals := s.testEvals + 1 }

/-- All (epoch, batch) tags produced by epochs 0, …, e-1. -/
def allEntries (e nb : Nat) : List (Nat × Nat) :=
  ((List.range e).map (fun ep => (List.range nb).map (fun i => (ep, i)))).flatten

theorem runTraining_succ (epochs nb : Nat) :
    runTraining (epochs + 1) nb = epochBody nb (runTraining epochs nb) epochs := by
  unfold runTraining
  rw [List.range_succ, List.foldl_append]
  rfl

theorem allEntries_succ (e nb : Nat) :
    allEntries (e + 1) nb = allEntries e nb ++ (List.range nb).map (fun i => (e, i)) := by
  simp [allEntries, List.range_succ]

theorem foldl_epochBody_min_loss (nb : Nat) (l : List Nat) :
    ∀ s : TrainState, (l.foldl (epochBody nb) s).min_loss = s.min_loss := by
  induction l with
  | nil => intro s; rfl
  | cons a t ih =>
    intro s
    rw [List.foldl_cons, ih]
    rfl

theorem foldl_epochBody_best_epoch (nb : Nat) (l : List Nat) :
    ∀ s : TrainState, (l.foldl (epochBody nb) s).best_epoch = s.best_epoch := by
  induction l with
  | nil => intro s; rfl
  | cons a t ih =>
    intro s
    rw [List.foldl_cons, ih]
    rfl

theorem foldl_epochBody_testEvals (nb : Nat) (l : List Nat) :
    ∀ s : TrainState, (l.foldl (epochBody nb) s).testEvals = s.testEvals := by
  induction l with
  | nil => intro s; rfl
  | cons a t ih =>
    intro s
    rw [List.foldl_cons, ih]
    rfl

theorem foldl_epochBody_epochsRun (nb : Nat) (l : List Nat) :
    ∀ s : TrainState, (l.foldl (epochBody nb) s).epochsRun = s.epochsRun + l.length := by
  induction l with
  | nil => intro s; rfl
  | cons a t ih =>
    intro s
    rw [List.foldl_cons, ih]
    show (epochBody nb s a).epochsRun + t.length = _
    simp only [epochBody]
    simp [List.length_cons]
    omega

theorem runTraining_out_log (epochs nb : Nat) :
    (runTraining epochs nb).out_log = allEntries epochs nb := by
  induction epochs with
  | zero => rfl
  | succ n ih =>
    rw [runTraining_succ, allEntries_succ, ← ih]
    rfl

theorem runTraining_evalInputs (epochs nb : Nat) :
    (runTraining epochs nb).evalInputs =
      (List.range epochs).map (fun e => allEntries (e + 1) nb) := by
  induction epochs with
  | zero => rfl
  | succ n ih =>
    rw [runTraining_succ, List.range_succ, List.map_append]
    show (runTraining n nb).evalInputs ++
        [(runTraining n nb).out_log ++ (List.range nb).map (fun i => (n, i))] = _
    rw [ih, runTraining_out_log, ← allEntries_succ]
    rfl

/-- Claim C7: the loop runs exactly the configured number of epochs, the
test set is evaluated exactly once afterwards, and the min_loss /
best_epoch trackers keep their initial values 1e10 and 0 in every reachable
state of the loop (the state after any number k of epochs) and at the
end. -/
theorem c7_loop_counts_dead_trackers (epochs nb k : Nat) :
    (runMain epochs nb).epochsRun = epochs ∧
    (runMain epochs nb).testEvals = 1 ∧
    (runTraining k nb).min_loss = 10 ^ 10 ∧
    (runTraining k nb).best_epoch = 0 ∧
    (runMain epochs nb).min_loss = 10 ^ 10 ∧
    (runMain epochs nb).best_epoch = 0 := by
  have h1 : ∀ m, (runTraining m nb).epochsRun = m := by
    intro m
    unfold runTraining
    rw [foldl_epochBody_epochsRun]
    simp [initState]
  have h2 : ∀ m, (runTraining m nb).min_loss = 10 ^ 10 := by
    intro m
    unfold runTraining
    rw [foldl_epochBody_min_loss]
    rfl
  have h3 : ∀ m, (runTraining m nb).best_epoch = 0 := by
    intro m
    unfold runTraining
    rw [foldl_epochBody_best_epoch]
    rfl
  have h4 : (runTraining epochs nb).testEvals = 0 := by
    unfold runTraining
    rw [foldl_epochBody_testEvals]
    rfl
  refine ⟨?_, ?_, h2 k, h3 k, ?_, ?_⟩
  · show (runTraining epochs nb).epochsRun = epochs
    exact h1 epochs
  · show (runTraining epochs nb).testEvals + 1 = 1
    rw [h4]
  · exact h2 epochs
  · exact h3 epochs

/-- Claim C4, counterexample: with 2 epochs of one batch each, the training
metrics call at the end of epoch 1 consumes the pairs of epochs 0 and 1,
not only the pairs produced during epoch 1. -/
theorem c4_per_epoch_metrics_counterexample :
    (runTraining 2 1).evalInputs.getD 1 [] = [(0, 0), (1, 0)] ∧
    (runTraining 2 1).evalInputs.getD 1 [] ≠ [(1, 0)] := by decide

/-- Claim C4 (amended): the training metrics accumulator is initialized
once before the epoch loop and never cleared, so the training metrics
reported at the end of epoch e are computed over the (probability, label)
pairs of every epoch up to and including e, not over epoch e alone. -/
theorem c4_training_log_is_cumulative (epochs nb e : Nat) (he : e < epochs) :
    (runTraining epochs nb).evalInputs.getD e [] = allEntries (e + 1) nb := by
  rw [runTraining_evalInputs]
  rw [List.getD_eq_getElem?_getD, List.getElem?_map, List.getElem?_range he]
  rfl

theorem c4_training_log_is_cumulative_witness :
    1 < 3 ∧ (runTraining 3 2).evalInputs.getD 1 [] = allEntries (1 + 1) 2 :=
  ⟨by decide, c4_training_log_is_cumulative 3 2 1 (by decide)⟩

/-- The three convolution layer variants the script knows (lines 36-41). -/
inductive ConvKind where
  | gcn
  | sage
  | gat
  deriving DecidableEq

/-- Which layers Model.__init__ ends up setting: conv1 is assigned only in
one of the three if/elif branches; lin0 only when concat; lin1 always.
Linear layers are recorded as (in_features, out_features). -/
structure ModelLayers where
  conv1 : Option ConvKind
  lin0 : Option (Nat × Nat)
  lin1 : Nat × Nat
  deriving DecidableEq

/-- Model.__init__ (lines 26-47): the if/elif chain over the model-type
string has no else branch, so any other string leaves conv1 unset; the
linear layers are then constructed according to concat, and initialization
always completes, returning the layer record without raising. -/
def modelInit (modelType : String) (concat : Bool)
    (numFeatures nhid numClasses : Nat) : ModelLayers :=
  let c1 : Option ConvKind :=
    if modelType = "gcn" then some ConvKind.gcn
    else if modelType = "sage" then some ConvKind.sage
    else if modelType = "gat" then some ConvKind.gat
    else none
  if concat then
    { conv1 := c1, lin0 := some (numFeatures, nhid), lin1 := (nhid * 2, numClasses) }
  else
    { conv1 := c1, lin0 := none, lin1 := (nhid, numClasses) }

/-- Claim C6: an unsupported model-type string is not rejected —
initialization still completes and returns the layer record with the
remaining layers set, but with the convolution field conv1 left unset. -/
theorem c6_unsupported_model_type (s : String) (concat : Bool) (nf nh nc : Nat)
    (h1 : s ≠ "gcn") (h2 : s ≠ "sage") (h3 : s ≠ "gat") :
    (modelInit s concat nf nh nc).conv1 = none ∧
    (modelInit s concat nf nh nc).lin1 =
      (if concat then (nh * 2, nc) else (nh, nc)) := by
  cases concat <;> simp [modelInit, h1, h2, h3]

def otherModelType : String := "transformer"

theorem c6_unsupported_model_type_witness :
    (otherModelType ≠ "gcn" ∧ otherModelType ≠ "sage" ∧ otherModelType ≠ "gat") ∧
    ((modelInit otherModelType true 3 4 2).conv1 = none ∧
      (modelInit otherModelType true 3 4 2).lin1 =
        (if true then (4 * 2, 2) else (4, 2))) :=
  ⟨⟨by decide, by decide, by decide⟩,
    c6_unsupported_model_type otherModelType true 3 4 2
      (by decide) (by decide) (by decide)⟩

/-- Python bool(s) on a string: False exactly for the empty string, True
for every non-empty string. -/
def pythonBool (s : String) : Bool := !(s == "")

/-- argparse with type=bool (lines 82-84): when the flag is absent on the
command line the declared default is used; when a value string is passed,
argparse applies the type converter, so the parsed value is bool(value). -/
def parseBoolFlag (dflt : Bool) (arg : Option String) : Bool :=
  match arg with
  | none => dflt
  | some s => pythonBool s

/-- Default of --concat (line 82). -/
def concatDefault : Bool := true

/-- Default of --no_feature (line 83). -/
def noFeatureDefault : Bool := false

/-- Default of --multi_gpu (line 84). -/
def multiGpuDefault : Bool := true

/-- Claim C9, counterexample: passing the empty string as the flag value
parses to False without using the default, so False is not only obtainable
via the flag's default. -/
theorem c9_false_only_default_counterexample :
    parseBoolFlag concatDefault (some ("")) = false ∧
    some ("") ≠ (none : Option String) := by decide

/-- Claim C9 (amended): any non-empty value string passed to one of the
type=bool flags parses to True (in particular the strings "False" and
"0"), and a parsed value of False arises only from the flag's default or
from passing the empty string as the value. -/
theorem c9_bool_flags_nonempty_true (d : Bool) (s : String) (hs : s ≠ "") :
    parseBoolFlag d (some s) = true ∧
    (∀ a : Option String, parseBoolFlag d a = false → a = none ∨ a = some ("")) := by
  constructor
  · simp [parseBoolFlag, pythonBool, hs]
  · intro a ha
    cases a with
    | none => exact Or.inl rfl
    | some t =>
      right
      simp only [parseBoolFlag, pythonBool, Bool.not_eq_true'] at ha
      have ht : t = "" := by simpa using ha
      rw [ht]

def falseString : String := "False"

theorem c9_bool_flags_nonempty_true_witness :
    falseString ≠ "" ∧
    (parseBoolFlag concatDefault (some falseString) = true ∧
      (∀ a : Option String, parseBoolFlag concatDefault a = false →
        a = none ∨ a = some (""))) :=
  ⟨by decide, c9_bool_flags_nonempty_true concatDefault falseString (by decide)⟩

/-- Learned weights of the script's Model head (lines 43-47): lin0 is used
only in concat mode, lin1 is the final classifier. A weight matrix is a
list of rows; a linear layer computes W·v + b. The convolution layer
conv1 is an external torch_geometric module; it enters the embedding as an
explicit function argument of the forward pass (the script selects one of
GCNConv, SAGEConv, GATConv). -/
structure Params where
  lin0W : List (List ℚ)
  lin0b : List ℚ
  lin1W : List (List ℚ)
  lin1b : List ℚ
  deriving DecidableEq

/-- A merged PyG batch as Model.forward sees it (line 51): node-feature
matrix x, the two edge-index rows, the per-node graph-assignment vector
batch, and data.num_graphs. -/
structure Batch where
  x : List (List ℚ)
  edge0 : List Nat
  edge1 : List Nat
  batch : List Nat
  numGraphs : Nat
  deriving DecidableEq

def relu (q : ℚ) : ℚ := max q 0

def dot (v w : List ℚ) : ℚ := (List.zipWith (fun a b => a * b) v w).sum

def matVec (M : List (List ℚ)) (v : List ℚ) : List ℚ := M.map (fun row => dot row v)

def addVec (v w : List ℚ) : List ℚ := List.zipWith (fun a b => a + b) v w

def maxVec (v w : List ℚ) : List ℚ := List.zipWith (fun a b => max a b) v w

/-- torch.nn.Linear: W·v + b. -/
def linearLayer (W : List (List ℚ)) (b v : List ℚ) : List ℚ := addVec (matVec W v) b

/-- The node-embedding rows belonging to graph g of the batch. -/
def groupRows (x : List (List ℚ)) (batch : List Nat) (g : Nat) : List (List ℚ) :=
  (List.zip x batch).filterMap (fun p => if p.2 = g then some p.1 else none)

/-- Elementwise maximum of a group of rows; an empty group yields the zero
vector of width w. -/
def poolRows (w : Nat) : List (List ℚ) → List ℚ
  | [] => List.replicate w 0
  | r :: rs => rs.foldl maxVec r

/-- torch_geometric global_max_pool (gmp, line 56): elementwise maximum
over each graph's node embeddings, producing one row per graph id below
num_graphs; a graph id with no nodes pools to the zero vector of the
embedding width. -/
def gmp (x : List (List ℚ)) (batch : List Nat) (ng : Nat) : List (List ℚ) :=
  (List.range ng).map (fun g => poolRows (x.headD []).length (groupRows x batch g))

/-- (data.batch == idx).nonzero() (line 59): the node positions assigned to
graph idx. -/
def nodePositions (batch : List Nat) (g : Nat) : List Nat :=
  (List.range batch.length).filter (fun i => batch.getD i 0 == g)

/-- Line 59's first-node extraction `.squeeze()[0]` for one graph: with at
least two matching positions, squeeze keeps a one-dimensional tensor and
[0] picks the first position; with exactly one match squeeze produces a
zero-dimensional tensor and the [0] indexing raises, and with no match [0]
is out of range — both failures are modelled as none. -/
def newsIndex (batch : List Nat) (g : Nat) : Option Nat :=
  if 2 ≤ (nodePositions batch g).length then some ((nodePositions batch g).headD 0)
  else none

def allSome {α : Type} : List (Option α) → Option (List α)
  | [] => some []
  | none :: _ => none
  | some a :: rest => (allSome rest).map (fun l => a :: l)

/-- torch.stack of the per-graph first-node feature rows (line 59); the
comprehension raises — yields none — as soon as any single graph's
extraction raises. -/
def newsStack (b : Batch) : Option (List (List ℚ)) :=
  allSome ((List.range b.numGraphs).map
    (fun g => (newsIndex b.batch g).map (fun j => b.x.getD j [])))

/-- x = F.relu(self.conv1(x, edge_index, edge_attr)) (line 55), with the
convolution layer passed in as a function. -/
def convRelu (conv : List (List ℚ) → List Nat → List Nat → List (List ℚ))
    (b : Batch) : List (List ℚ) :=
  (conv b.x b.edge0 b.edge1).map (fun r => r.map relu)

/-- The embedding matrix fed to the final classifier lin1: the pooled
graph embeddings (lines 55-56), in concat mode concatenated with the
relu'd lin0 projection of each graph's first-node features
(lines 58-61). -/
def lin1Input (conv : List (List ℚ) → List Nat → List Nat → List (List ℚ))
    (p : Params) (cat : Bool) (b : Batch) : Option (List (List ℚ)) :=
  let xp := gmp (convRelu conv b) b.batch b.numGraphs
  if cat then
    (newsStack b).map (fun nr =>
      List.zipWith (fun a c => a ++ c)
        xp (nr.map (fun v => (linearLayer p.lin0W p.lin0b v).map relu)))
  else some xp

/-- Model.forward up to (but excluding) the final log_softmax: the
class-score rows self.lin1(x) (lines 62 / 65). -/
def forwardLogits (conv : List (List ℚ) → List Nat → List Nat → List (List ℚ))
    (p : Params) (cat : Bool) (b : Batch) : Option (List (List ℚ)) :=
  (lin1Input conv p cat b).map (fun M => M.map (linearLayer p.lin1W p.lin1b))

/-- F.log_softmax over one row of class scores. -/
noncomputable def logSoftmaxRow (v : List ℝ) : List ℝ :=
  v.map (fun a => a - Real.log ((v.map Real.exp).sum))

/-- A row of rational scores read as reals. -/
noncomputable def ratRow (v : List ℚ) : List ℝ := v.map Rat.cast

/-- Model.forward (lines 49-67): log-softmax of the class scores, one row
per graph; none when the concat-mode first-node extraction raises. -/
noncomputable def forwardOut (conv : List (List ℚ) → List Nat → List Nat → List (List ℚ))
    (p : Params) (cat : Bool) (b : Batch) : Option (List (List ℝ)) :=
  (forwardLogits conv p cat b).map
    (fun M => M.map (fun r => logSoftmaxRow (ratRow r)))

def widthOf (x : List (List ℚ)) : Nat := (x.headD []).length

def sumVecs (w : Nat) (vs : List (List ℚ)) : List ℚ :=
  vs.foldl addVec (List.replicate w 0)

/-- Source nodes of the edges pointing into node i. -/
def inNeighbors (e0 e1 : List Nat) (i : Nat) : List Nat :=
  (List.zip e0 e1).filterMap (fun p => if p.2 = i then some p.1 else none)

/-- torch_geometric SAGEConv with mean aggregation — the script's default
model 'sage' (line 39): x'_i = Wl·mean of in-neighbor features + bl +
Wr·x_i. Used as the concrete convolution instantiation in the witnesses;
the claim theorems quantify over the convolution function. -/
def sageConv (Wl : List (List ℚ)) (bl : List ℚ) (Wr : List (List ℚ))
    (x : List (List ℚ)) (e0 e1 : List Nat) : List (List ℚ) :=
  (List.range x.length).map (fun i =>
    let js := inNeighbors e0 e1 i
    let agg := if js.length = 0 then List.replicate (widthOf x) 0
      else (sumVecs (widthOf x) (js.map (fun j => x.getD j []))).map
        (fun q => q / (js.length : ℚ))
    addVec (linearLayer Wl bl agg) (matVec Wr (x.getD i [])))

theorem linearLayer_length (W : List (List ℚ)) (b v : List ℚ) :
    (linearLayer W b v).length = min W.length b.length := by
  simp [linearLayer, addVec, matVec]

theorem logSoftmaxRow_length (v : List ℝ) : (logSoftmaxRow v).length = v.length := by
  simp [logSoftmaxRow]

theorem exp_logSoftmaxRow_sum (v : List ℝ) (hv : v ≠ []) :
    ((logSoftmaxRow v).map Real.exp).sum = 1 := by
  have hpos : 0 < (v.map Real.exp).sum := by
    apply List.sum_pos
    · intro x hx
      obtain ⟨a, _, rfl⟩ := List.mem_map.mp hx
      exact Real.exp_pos a
    · simpa using hv
  have hmap : (logSoftmaxRow v).map Real.exp =
      v.map (fun a => Real.exp a * ((v.map Real.exp).sum)⁻¹) := by
    rw [logSoftmaxRow, List.map_map]
    apply List.map_congr_left
    intro a ha
    show Real.exp (a - Real.log ((v.map Real.exp).sum)) = _
    rw [Real.exp_sub, Real.exp_log hpos, div_eq_mul_inv]
  rw [hmap, List.sum_map_mul_right, mul_inv_cancel₀ (ne_of_gt hpos)]

theorem allSome_of_forall {α : Type} :
    ∀ l : List (Option α), (∀ o ∈ l, o ≠ none) →
      ∃ xs, allSome l = some xs ∧ xs.length = l.length := by
  intro l
  induction l with
  | nil => intro _; exact ⟨[], rfl, rfl⟩
  | cons o t ih =>
    intro h
    obtain ⟨xs, hxs, hlen⟩ := ih (fun o ho => h o (List.mem_cons_of_mem _ ho))
    cases o with
    | none => exact absurd rfl (h none (List.mem_cons_self _ _))
    | some a =>
      refine ⟨a :: xs, ?_, by simp [hlen]⟩
      simp [allSome, hxs]

theorem newsStack_some (b : Batch)
    (hnodes : ∀ g, g < b.numGraphs → 2 ≤ (nodePositions b.batch g).length) :
    ∃ nr, newsStack b = some nr ∧ nr.length = b.numGraphs := by
  obtain ⟨nr, hnr, hlen⟩ := allSome_of_forall
    ((List.range b.numGraphs).map
      (fun g => (newsIndex b.batch g).map (fun j => b.x.getD j [])))
    (by
      intro o ho
      obtain ⟨g, hg, rfl⟩ := List.mem_map.mp ho
      rw [List.mem_range] at hg
      have h2 := hnodes g hg
      simp [newsIndex, h2])
  refine ⟨nr, hnr, ?_⟩
  rw [hlen]
  simp

theorem lin1Input_some (conv : List (List ℚ) → List Nat → List Nat → List (List ℚ))
    (p : Params) (cat : Bool) (b : Batch)
    (hcat : cat = true → ∀ g, g < b.numGraphs → 2 ≤ (nodePositions b.batch g).length) :
    ∃ M, lin1Input conv p cat b = some M ∧ M.length = b.numGraphs := by
  cases cat with
  | false =>
    refine ⟨gmp (convRelu conv b) b.batch b.numGraphs, rfl, ?_⟩
    simp [gmp]
  | true =>
    obtain ⟨nr, hnr, hlen⟩ := newsStack_some b (hcat rfl)
    refine ⟨List.zipWith (fun a c => a ++ c)
      (gmp (convRelu conv b) b.batch b.numGraphs)
      (nr.map (fun v => (linearLayer p.lin0W p.lin0b v).map relu)), ?_, ?_⟩
    · simp [lin1Input, hnr]
    · rw [List.length_zipWith, List.length_map, hlen]
      simp [gmp]

/-- Claim C5: with a positive configured class count and a classifier of
that many rows and biases, the forward pass — in either concat mode (on a
batch whose graphs each have at least two nodes, where it is defined) or
plain mode — returns a matrix with one row per distinct graph of the
batch and one column per class, and exponentiating any output row yields
values summing to 1 (log-softmax invariant). -/
theorem c5_forward_shape_logsoftmax
    (conv : List (List ℚ) → List Nat → List Nat → List (List ℚ))
    (p : Params) (b : Batch) (cat : Bool) (C : Nat)
    (hC : 0 < C) (hW : p.lin1W.length = C) (hb : p.lin1b.length = C)
    (hcat : cat = true → ∀ g, g < b.numGraphs → 2 ≤ (nodePositions b.batch g).length) :
    ∃ out, forwardOut conv p cat b = some out ∧
      out.length = b.numGraphs ∧
      ∀ row ∈ out, row.length = C ∧ (row.map Real.exp).sum = 1 := by
  obtain ⟨M, hM, hMlen⟩ := lin1Input_some conv p cat b hcat
  refine ⟨M.map (fun z =>
    logSoftmaxRow (ratRow (linearLayer p.lin1W p.lin1b z))), ?_, ?_, ?_⟩
  · rw [forwardOut, forwardLogits, hM]
    simp
  · rw [List.length_map, hMlen]
  · intro row hrow
    obtain ⟨z, hz, rfl⟩ := List.mem_map.mp hrow
    have hv : (ratRow (linearLayer p.lin1W p.lin1b z)).length = C := by
      rw [ratRow, List.length_map, linearLayer_length, hW, hb, Nat.min_self]
    constructor
    · rw [logSoftmaxRow_length, hv]
    · apply exp_logSoftmaxRow_sum
      intro hnil
      rw [hnil] at hv
      simp at hv
      omega

theorem mem_of_mem_groupRows {x : List (List ℚ)} {batch : List Nat} {g : Nat}
    {r : List ℚ} (h : r ∈ groupRows x batch g) : r ∈ x := by
  obtain ⟨p, hp, hpe⟩ := List.mem_filterMap.mp h
  obtain ⟨a, c⟩ := p
  by_cases h2 : c = g
  · simp only [h2, if_true, reduceIte] at hpe
    have ha : a = r := by simpa using hpe
    subst ha
    exact (List.of_mem_zip hp).1
  · simp [h2] at hpe

theorem foldl_maxVec_length (n : Nat) :
    ∀ (rows : List (List ℚ)) (init : List ℚ), init.length = n →
      (∀ r ∈ rows, r.length = n) → (rows.foldl maxVec init).length = n := by
  intro rows
  induction rows with
  | nil => intro init hi _; simpa using hi
  | cons r rs ih =>
    intro init hi hr
    rw [List.foldl_cons]
    apply ih
    · simp [maxVec, hi, hr r (List.mem_cons_self _ _)]
    · intro q hq
      exact hr q (List.mem_cons_of_mem _ hq)

theorem poolRows_length (w n : Nat) (l : List (List ℚ)) (hl : l ≠ [])
    (hr : ∀ r ∈ l, r.length = n) : (poolRows w l).length = n := by
  cases l with
  | nil => exact absurd rfl hl
  | cons r rs =>
    show (rs.foldl maxVec r).length = n
    exact foldl_maxVec_length n rs r (hr r (List.mem_cons_self _ _))
      (fun q hq => hr q (List.mem_cons_of_mem _ hq))

theorem groupRows_ne_nil (x : List (List ℚ)) :
    ∀ (batch : List Nat) (g : Nat), x.length = batch.length → g ∈ batch →
      groupRows x batch g ≠ [] := by
  induction x with
  | nil =>
    intro batch g hlen hg
    cases batch with
    | nil => simp at hg
    | cons bb bt => simp at hlen
  | cons r xs ih =>
    intro batch g hlen hg
    cases batch with
    | nil => simp at hg
    | cons bb bt =>
      by_cases hb : bb = g
      · simp [groupRows, hb]
      · rcases List.mem_cons.mp hg with h | h
        · exact absurd h.symm hb
        · have hne := ih bt g (by simpa using hlen) h
          simpa [groupRows, hb] using hne

theorem mem_of_nodePositions_pos {batch : List Nat} {g : Nat}
    (h : 0 < (nodePositions batch g).length) : g ∈ batch := by
  obtain ⟨i, hi⟩ := List.exists_mem_of_ne_nil _ (List.length_pos.mp h)
  have h1 := List.mem_filter.mp hi
  have hib : i < batch.length := List.mem_range.mp h1.1
  have hgd : batch.getD i 0 = g := by simpa using h1.2
  rw [← hgd, List.getD_eq_getElem?_getD, List.getElem?_eq_getElem hib]
  exact List.getElem_mem hib

theorem gmp_row_length (x : List (List ℚ)) (batch : List Nat) (ng n : Nat)
    (hx : ∀ r ∈ x, r.length = n)
    (hne : ∀ g, g < ng → groupRows x batch g ≠ []) :
    ∀ r ∈ gmp x batch ng, r.length = n := by
  intro r hr
  obtain ⟨g, hgmem, hrg⟩ := List.mem_map.mp hr
  rw [List.mem_range] at hgmem
  subst hrg
  apply poolRows_length
  · exact hne g hgmem
  · intro q hq
    exact hx q (mem_of_mem_groupRows hq)

theorem mem_zipWith_append {A B : List (List ℚ)} {r : List ℚ} :
    r ∈ List.zipWith (fun a c => a ++ c) A B → ∃ a ∈ A, ∃ c ∈ B, r = a ++ c := by
  induction A generalizing B with
  | nil => intro h; simp at h
  | cons a t ih =>
    intro h
    cases B with
    | nil => simp at h
    | cons c u =>
      rw [List.zipWith_cons_cons] at h
      rcases List.mem_cons.mp h with h1 | h2
      · exact ⟨a, List.mem_cons_self _ _, c, List.mem_cons_self _ _, h1⟩
      · obtain ⟨a2, ha, c2, hc, he⟩ := ih h2
        exact ⟨a2, List.mem_cons_of_mem _ ha, c2, List.mem_cons_of_mem _ hc, he⟩

/-- Claim C8: with identical input and identical convolution weights (the
same convolution function and batch in both modes), concat mode feeds the
final classifier lin1 embedding rows of width nhid·2 while plain mode
feeds rows of width nhid, yet both modes produce class-score matrices of
identical shape: num_graphs rows by num_classes columns. -/
theorem c8_concat_width_and_shape
    (conv : List (List ℚ) → List Nat → List Nat → List (List ℚ))
    (pc pp : Params) (b : Batch) (nhid C : Nat)
    (hxlen : (conv b.x b.edge0 b.edge1).length = b.x.length)
    (hrows : ∀ r ∈ conv b.x b.edge0 b.edge1, r.length = nhid)
    (hbatch : b.batch.length = b.x.length)
    (h0W : pc.lin0W.length = nhid) (h0b : pc.lin0b.length = nhid)
    (hc1 : pc.lin1W.length = C) (hc2 : pc.lin1b.length = C)
    (hp1 : pp.lin1W.length = C) (hp2 : pp.lin1b.length = C)
    (hnodes : ∀ g, g < b.numGraphs → 2 ≤ (nodePositions b.batch g).length) :
    ∃ Ic Ip Mc Mp,
      lin1Input conv pc true b = some Ic ∧
      lin1Input conv pp false b = some Ip ∧
      (∀ r ∈ Ic, r.length = nhid * 2) ∧
      (∀ r ∈ Ip, r.length = nhid) ∧
      forwardLogits conv pc true b = some Mc ∧
      forwardLogits conv pp false b = some Mp ∧
      Mc.length = b.numGraphs ∧ Mp.length = b.numGraphs ∧
      (∀ r ∈ Mc, r.length = C) ∧ (∀ r ∈ Mp, r.length = C) := by
  have hx1len : (convRelu conv b).length = b.x.length := by
    rw [convRelu, List.length_map, hxlen]
  have hx1rows : ∀ r ∈ convRelu conv b, r.length = nhid := by
    intro r hr
    obtain ⟨r2, hr2, rfl⟩ := List.mem_map.mp hr
    rw [List.length_map]
    exact hrows r2 hr2
  have hgne : ∀ g, g < b.numGraphs → groupRows (convRelu conv b) b.batch g ≠ [] := by
    intro g hg
    apply groupRows_ne_nil
    · rw [hx1len, hbatch]
    · exact mem_of_nodePositions_pos (by have := hnodes g hg; omega)
  have hpool : ∀ r ∈ gmp (convRelu conv b) b.batch b.numGraphs, r.length = nhid :=
    gmp_row_length (convRelu conv b) b.batch b.numGraphs nhid hx1rows hgne
  have hpoollen : (gmp (convRelu conv b) b.batch b.numGraphs).length = b.numGraphs := by
    simp [gmp]
  obtain ⟨nr, hnr, hnrlen⟩ := newsStack_some b hnodes
  refine ⟨List.zipWith (fun a c => a ++ c)
      (gmp (convRelu conv b) b.batch b.numGraphs)
      (nr.map (fun v => (linearLayer pc.lin0W pc.lin0b v).map relu)),
    gmp (convRelu conv b) b.batch b.numGraphs,
    (List.zipWith (fun a c => a ++ c)
      (gmp (convRelu conv b) b.batch b.numGraphs)
      (nr.map (fun v => (linearLayer pc.lin0W pc.lin0b v).map relu))).map
      (linearLayer pc.lin1W pc.lin1b),
    (gmp (convRelu conv b) b.batch b.numGraphs).map (linearLayer pp.lin1W pp.lin1b),
    ?_, rfl, ?_, hpool, ?_, rfl, ?_, ?_, ?_, ?_⟩
  · simp [lin1Input, hnr]
  · intro r hr
    obtain ⟨a, ha, c, hc, rfl⟩ := mem_zipWith_append hr
    obtain ⟨v, hv, rfl⟩ := List.mem_map.mp hc
    rw [List.length_append, hpool a ha, List.length_map, linearLayer_length,
      h0W, h0b, Nat.min_self]
    omega
  · rw [forwardLogits, lin1Input]
    simp [hnr]
  · rw [List.length_map, List.length_zipWith, hpoollen, List.length_map, hnrlen,
      Nat.min_self]
  · rw [List.length_map, hpoollen]
  · intro r hr
    obtain ⟨z, hz, rfl⟩ := List.mem_map.mp hr
    rw [linearLayer_length, hc1, hc2, Nat.min_self]
  · intro r hr
    obtain ⟨z, hz, rfl⟩ := List.mem_map.mp hr
    rw [linearLayer_length, hp1, hp2, Nat.min_self]

theorem allSome_mem_none {α : Type} :
    ∀ l : List (Option α), (none : Option α) ∈ l → allSome l = none := by
  intro l hl
  induction l with
  | nil => simp at hl
  | cons o t ih =>
    cases o with
    | none => rfl
    | some a =>
      rcases List.mem_cons.mp hl with h | h
      · exact absurd h (by simp)
      · simp [allSome, ih h]

/-- Claim C10: in concat mode the forward pass is undefined on any batch
containing a graph with exactly one node: that graph's first-node
extraction squeezes the index tensor to zero dimensions, the subsequent
[0] indexing raises, and the forward pass produces no output. -/
theorem c10_one_node_graph_raises
    (conv : List (List ℚ) → List Nat → List Nat → List (List ℚ))
    (p : Params) (b : Batch) (g : Nat)
    (hg : g < b.numGraphs) (h1 : (nodePositions b.batch g).length = 1) :
    forwardLogits conv p true b = none ∧ forwardOut conv p true b = none := by
  have hidx : newsIndex b.batch g = none := by
    simp [newsIndex, h1]
  have hmem : (none : Option (List ℚ)) ∈ (List.range b.numGraphs).map
      (fun g2 => (newsIndex b.batch g2).map (fun j => b.x.getD j [])) := by
    apply List.mem_map.mpr
    exact ⟨g, List.mem_range.mpr hg, by simp [hidx]⟩
  have hstack : newsStack b = none := allSome_mem_none _ hmem
  constructor
  · simp [forwardLogits, lin1Input, hstack]
  · simp [forwardOut, forwardLogits, lin1Input, hstack]

/-- A concrete SAGEConv instantiation with one input feature and hidden
width two, used by the forward-pass witnesses. -/
def convW : List (List ℚ) → List Nat → List Nat → List (List ℚ) :=
  sageConv [[1], [0]] [0, 0] [[1], [1]]

/-- Concrete concat-mode parameters: lin0 is 2×1, lin1 is 2×4. -/
def pW : Params :=
  { lin0W := [[1], [2]], lin0b := [0, 0],
    lin1W := [[1, 1, 1, 1], [0, 1, 0, 1]], lin1b := [0, 0] }

/-- Concrete plain-mode parameters: lin1 is 2×2. -/
def ppW : Params :=
  { lin0W := [], lin0b := [],
    lin1W := [[1, 0], [0, 1]], lin1b := [0, 0] }

/-- A merged batch of two graphs with two nodes each. -/
def bW : Batch :=
  { x := [[1], [2], [3], [4]], edge0 := [0, 1], edge1 := [1, 0],
    batch := [0, 0, 1, 1], numGraphs := 2 }

theorem c5_forward_shape_logsoftmax_witness :
    0 < 2 ∧
    (∃ out, forwardOut convW pW true bW = some out ∧
      out.length = bW.numGraphs ∧
      ∀ row ∈ out, row.length = 2 ∧ (row.map Real.exp).sum = 1) :=
  ⟨by decide, c5_forward_shape_logsoftmax convW pW bW true 2
    (by decide) (by decide) (by decide) (fun _ => by decide)⟩

theorem c8_concat_width_and_shape_witness :
    (∀ r ∈ convW bW.x bW.edge0 bW.edge1, r.length = 2) ∧
    (∃ Ic Ip Mc Mp,
      lin1Input convW pW true bW = some Ic ∧
      lin1Input convW ppW false bW = some Ip ∧
      (∀ r ∈ Ic, r.length = 2 * 2) ∧
      (∀ r ∈ Ip, r.length = 2) ∧
      forwardLogits convW pW true bW = some Mc ∧
      forwardLogits convW ppW false bW = some Mp ∧
      Mc.length = bW.numGraphs ∧ Mp.length = bW.numGraphs ∧
      (∀ r ∈ Mc, r.length = 2) ∧ (∀ r ∈ Mp, r.length = 2)) :=
  ⟨by decide, c8_concat_width_and_shape convW pW ppW bW 2 2
    (by decide) (by decide) (by decide) (by decide) (by decide) (by decide)
    (by decide) (by decide) (by decide) (by decide)⟩

/-- A concat-mode batch whose second graph has exactly one node. -/
def bW1 : Batch :=
  { x := [[1], [2], [3]], edge0 := [], edge1 := [],
    batch := [0, 0, 1], numGraphs := 2 }

theorem c10_one_node_graph_raises_witness :
    (1 < bW1.numGraphs ∧ (nodePositions bW1.batch 1).length = 1) ∧
    (forwardLogits convW pW true bW1 = none ∧ forwardOut convW pW true bW1 = none) :=
  ⟨⟨by decide, by decide⟩,
    c10_one_node_graph_raises convW pW bW1 1 (by decide) (by decide)⟩
